import Mathlib

/-!
Verification of the `qmpy_rester` phase data model
(`src/qmpy_rester/phase_diagram/phase.py`).

Python dictionaries are embedded as insertion-ordered association lists,
real (float) arithmetic as exact rational arithmetic over `ℚ`, and Python
exceptions (`PhaseError`, `ZeroDivisionError`, `TypeError`) as an explicit
error type threaded through `Except`.

The helpers `parse_comp`, `unit_comp`, `reduce_comp` and `format_comp` live
in `qmpy_rester/utils.py`, which is not part of the sources under
verification; they are modelled from the specification's description of
those collaborators and are marked `Modelled from the spec:` below.
-/

set_option linter.unusedVariables false

attribute [local semireducible] Rat.mul Rat.add Rat.sub Rat.inv

/-- Element symbols (and the synthetic key `'var'`) are plain strings. -/
abbrev Elt := String

/-- A Python `dict` from element symbols to (rational) amounts, embedded as an
insertion-ordered association list. -/
abbrev Comp := List (Elt × ℚ)

/-- Lookup in an association list (first matching key), `dict.get`. -/
def alistGet? {κ α : Type} [DecidableEq κ] : List (κ × α) → κ → Option α
  | [], _ => none
  | (k', v) :: r, k => if k' = k then some v else alistGet? r k

/-- Store into a Python dict: update the (first) entry with the given key in
place, or append a fresh entry at the end, exactly as `d[k] = v` does. -/
def alistSet {κ α : Type} [DecidableEq κ] : List (κ × α) → κ → α → List (κ × α)
  | [], k, v => [(k, v)]
  | (k', v') :: r, k, v => if k' = k then (k, v) :: r else (k', v') :: alistSet r k v

/-- Amount stored for an element; missing keys default to `0`, as in the
`defaultdict(float, ...)` dictionaries used throughout `phase.py`. -/
def Comp.get (c : Comp) (e : Elt) : ℚ := (alistGet? c e).getD 0

/-- Store `d[k] = v` on a composition dictionary. -/
def Comp.set (c : Comp) (e : Elt) (v : ℚ) : Comp := alistSet c e v

/-- In-place `residual[c2] -= x` style update (`+=` with a signed delta). -/
def Comp.addAt (c : Comp) (e : Elt) (d : ℚ) : Comp := c.set e (c.get e + d)

/-- The key list of the dictionary (`for elt in phase.comp` iterates this). -/
def Comp.keys (c : Comp) : List Elt := c.map Prod.fst

/-- Computes `sum(comp.values())`. -/
def Comp.total (c : Comp) : ℚ := (c.map Prod.snd).sum

/-- Sum of the values whose key differs from `k` (used to speak about the
residual dictionary before its `'var'` entry is written). -/
def Comp.totalExcept (c : Comp) (k : Elt) : ℚ :=
  ((c.filter (fun ea => decide (ea.1 ≠ k))).map Prod.snd).sum

/-- The set of keys of a composition, `set(self.comp)` in `Phase.__eq__`. -/
def Comp.eltFinset (c : Comp) : Finset Elt := c.keys.toFinset

/-- Lexicographic comparison of strings by character code. -/
def charListLe : List Char → List Char → Bool
  | [], _ => true
  | _ :: _, [] => false
  | c :: cs, d :: ds =>
    if c.toNat < d.toNat then true
    else if d.toNat < c.toNat then false
    else charListLe cs ds

/-- Alphabetical order on element symbols. -/
def eltLe (a b : Elt) : Bool := charListLe a.data b.data

/-- Insertion into an alphabetically sorted composition list. -/
def insertSorted (x : Elt × ℚ) : Comp → Comp
  | [] => [x]
  | y :: ys => if eltLe x.1 y.1 then x :: y :: ys else y :: insertSorted x ys

/-- Sort a composition by element symbol (insertion sort, kernel-reducible). -/
def sortComp (c : Comp) : Comp := c.foldl (fun acc x => insertSorted x acc) []

/-- Render a rational number (stands in for Python's numeric formatting). -/
def ratStr (q : ℚ) : String :=
  if q.den = 1 then toString q.num else toString q.num ++ "/" ++ toString q.den

/-- Modelled from the spec: `utils.format_comp` (not in src), the composition
formatter: mapping → canonical display string, e.g. `{Fe:2, O:3} → "Fe2O3"`.
Elements are listed alphabetically; an amount of `1` is left implicit. -/
def formatComp (c : Comp) : String :=
  (sortComp c).foldl (fun s ev => s ++ ev.1 ++ (if ev.2 = 1 then "" else ratStr ev.2)) ""

/-- Modelled from the spec: `utils.unit_comp` (not in src), the composition
normalizer: mapping rescaled so the amounts sum to 1; rescaling a mapping with
zero total divides by zero, i.e. fails with an arithmetic error (`none`). -/
def unitComp (c : Comp) : Option Comp :=
  if c.total = 0 then none else some (c.map (fun ev => (ev.1, ev.2 / c.total)))

/-- Greatest common divisor of two non-negative rationals (gcd of the
numerators over lcm of the denominators). -/
def ratGcd (a b : ℚ) : ℚ :=
  (Nat.gcd a.num.natAbs b.num.natAbs : ℚ) / (Nat.lcm a.den b.den : ℚ)

/-- Modelled from the spec: `utils.reduce_comp` (not in src), the composition
reducer: mapping divided by the GCD of its values (`Fe4O6 → Fe2O3`). On the
all-zero mapping the gcd is `0` and the rational division below returns the
mapping unchanged; `Phase` construction fails earlier (in `unitComp`) in that
case, so this branch is never reached from `Phase.make`. -/
def reduceComp (c : Comp) : Comp :=
  let g := (c.map Prod.snd).foldl ratGcd 0
  c.map (fun ev => (ev.1, ev.2 / g))

/-- Python exceptions surfaced by `phase.py`: `PhaseError` (construction
error), `ZeroDivisionError` (arithmetic error) and `TypeError`. -/
inductive PyErr : Type
  | phaseError : PyErr
  | zeroDivision : PyErr
  | typeError : PyErr
deriving DecidableEq

/-- A `Phase` object: stored composition `_comp` with its derived `_unit_comp`
and `_nom_comp`, the three synchronized energy fields, and the bookkeeping
fields (`custom_name`, `phase_dict` for composite phases, `index` assigned by
the container, `description`, `stability`). -/
structure Phase : Type where
  comp : Comp
  unit_comp : Comp
  nom_comp : Comp
  energy : ℚ
  total_energy : ℚ
  energy_pfu : ℚ
  custom_name : Option String
  phase_dict : List (Phase × ℚ)
  index : Option Nat
  description : String
  stability : Option ℚ

/-- The `Phase.energy` setter: stores the per-atom energy and recomputes
`_total_energy = energy * sum(self.comp.values())` and
`_energy_pfu = energy / sum(self.nom_comp.values())` (sic: the source divides
the per-atom energy by the nominal atom count). -/
def Phase.setEnergy (p : Phase) (e : ℚ) : Phase :=
  { p with energy := e,
           total_energy := e * p.comp.total,
           energy_pfu := e / p.nom_comp.total }

/-- The `Phase.total_energy` setter: stores the total energy and recomputes
`_energy = energy / sum(self.comp.values())` and
`_energy_pfu = energy / sum(self.nom_comp.values())`. -/
def Phase.setTotalEnergy (p : Phase) (e : ℚ) : Phase :=
  { p with total_energy := e,
           energy := e / p.comp.total,
           energy_pfu := e / p.nom_comp.total }

/-- The `Phase.energy_pfu` setter: stores `_energy_pfu` only, leaving
`_energy` and `_total_energy` untouched (as the source does). -/
def Phase.setEnergyPfu (p : Phase) (e : ℚ) : Phase :=
  { p with energy_pfu := e }

/-- Embeds `Phase.__init__`: fails with `PhaseError` when composition or energy is
`None`; otherwise stores the composition (computing `unit_comp` and
`nom_comp` via the comp setter) and routes the energy value through the
`energy` or `total_energy` setter according to `per_atom`. The division by a
zero composition total inside `unit_comp` surfaces as `ZeroDivisionError`.
The `total` parameter is accepted and ignored, as in the source. -/
def Phase.make (composition : Option Comp) (energy : Option ℚ)
    (description : String) (per_atom : Bool) (stability : Option ℚ)
    (total : Bool) (name : String) : Except PyErr Phase :=
  match composition, energy with
  | none, _ => .error .phaseError
  | some _, none => .error .phaseError
  | some c, some e =>
    match unitComp c with
    | none => .error .zeroDivision
    | some u =>
      let p0 : Phase :=
        { comp := c, unit_comp := u, nom_comp := reduceComp c,
          energy := 0, total_energy := 0, energy_pfu := 0,
          custom_name := if name = "" then none else some name,
          phase_dict := [], index := none,
          description := description, stability := stability }
      if per_atom then .ok (p0.setEnergy e) else .ok (p0.setTotalEnergy e)

/-- A placeholder phase used only to destructure `Except` results in concrete
examples; never produced by `Phase.make`. -/
def dummyPhase : Phase :=
  { comp := [], unit_comp := [], nom_comp := [],
    energy := 0, total_energy := 0, energy_pfu := 0,
    custom_name := none, phase_dict := [], index := none,
    description := "", stability := none }

/-- Extract the phase from a successful construction (concrete examples). -/
def getPhase (r : Except PyErr Phase) : Phase :=
  match r with
  | .ok p => p
  | .error _ => dummyPhase

/-- Convenience: `Phase(composition, energy)` with default arguments. -/
def mkPhase (c : Comp) (e : ℚ) : Phase :=
  getPhase (Phase.make (some c) (some e) "" true none false "")

/-- Embeds `Phase.natoms`: `sum(self.nom_comp.values())`. -/
def Phase.natoms (p : Phase) : ℚ := p.nom_comp.total

mutual

/-- The `Phase.name` property: `custom_name` if set; for composite phases the
`' + '`-joined `"<amt/constituent-natoms> <constituent name>"` label over
`phase_dict` (the `%.3g` float formatting of the source is rendered by
`ratStr`); otherwise `format_comp(self.nom_comp)`. -/
def Phase.name : Phase → String
  | ⟨_, _, nom, _, _, _, cn, pdict, _, _, _⟩ =>
    match cn with
    | some n => n
    | none =>
      if pdict.isEmpty then formatComp nom
      else String.intercalate " + " (phaseNameList pdict)

/-- Renders the `"<amt/natoms> <name>"` terms of a composite label. -/
def phaseNameList : List (Phase × ℚ) → List String
  | [] => []
  | (p, v) :: rest =>
    (ratStr (v / p.natoms) ++ " " ++ Phase.name p) :: phaseNameList rest

end

/-- Embeds `Phase.__eq__`: equal key sets of the stored compositions, per-atom
energies within `1e-6`, and unit-composition entries within `1e-6` on every
key of `self.comp`. -/
def Phase.pyEq (p q : Phase) : Bool :=
  if p.comp.eltFinset ≠ q.comp.eltFinset then false
  else if |p.energy - q.energy| > 1/1000000 then false
  else p.comp.keys.all (fun k =>
    decide (¬ (|p.unit_comp.get k - q.unit_comp.get k| > 1/1000000)))

/-- Embeds `Phase.__hash__`, which hashes `(self.name, self.energy)`; we model the hash by
the pair itself (hash collisions between distinct pairs are ignored). -/
def Phase.hashKey (p : Phase) : String × ℚ := (p.name, p.energy)

/-- Membership test of a Python `set` of phases: an element is present when
some stored member has the same hash and compares equal under `__eq__`. -/
def pySetMem (s : List Phase) (p : Phase) : Bool :=
  s.any (fun q => decide (q.hashKey = p.hashKey) && q.pyEq p)

/-- Embeds `set.add` on a Python set of phases: keep the existing member when an
equal one (same hash, `__eq__`) is already present, otherwise insert. -/
def pySetAdd (s : List Phase) (p : Phase) : List Phase :=
  if pySetMem s p then s else s ++ [p]

/-- Embeds `Phase.from_phases`: with exactly one entry the source evaluates
`phase_dict.keys()[0]`, which in Python 3 raises `TypeError` (`dict_keys`
objects are not subscriptable). Otherwise the composite energy is the
amount-weighted sum of the constituents' per-atom energies, the composite
composition accumulates `unit_comp[e] * factor` over all constituents, and
the result is `Phase(comp, energy, per_atom=False)` with the constituent
mapping stored in `phase_dict`. (The `pkeys` sorted-key list computed by the
source is never used and is omitted.) -/
def Phase.from_phases (pdict : List (Phase × ℚ)) : Except PyErr Phase :=
  if pdict.length = 1 then .error .typeError
  else
    let energy := (pdict.map (fun pv => pv.2 * pv.1.energy)).sum
    let comp := pdict.foldl
      (fun c pv => pv.1.unit_comp.foldl
        (fun c2 ea => Comp.addAt c2 ea.1 (ea.2 * pv.2)) c) ([] : Comp)
    match Phase.make (some comp) (some energy) "" false none false "" with
    | .error err => .error err
    | .ok ph => .ok { ph with phase_dict := pdict }

/-- Both `Phase.amt` and `Phase.fraction` share this body; `base` is `self.comp`
(for `amt`) or `self.unit_comp` (for `fraction`) and `t` the target
composition. A fresh residual copy of `base` is taken; for each target entry
`(c, a)` the ratio `pres = residual[c] / a` is computed (a `ZeroDivisionError`
when `a = 0`) and `pres * a2` is subtracted from the residual at every target
key `c2`; finally the extracted amount `tot - sum(residual.values())`,
divided by `sum(t.values())` (a `ZeroDivisionError` when that total is zero),
is stored under the key `'var'`. Reading `residual[c]` on the defaultdict
also inserts the key with amount `0`; this affects only the key order of the
residual, never a value, and is elided here. One iteration of the outer
`for c, amt in dict(comp).items()` loop is `pyAmtStep`; `pyAmt` folds it. -/
def pyAmtStep (t : Comp) (acc : Except PyErr Comp) (ca : Elt × ℚ) : Except PyErr Comp :=
  match acc with
  | .error err => .error err
  | .ok r =>
    if ca.2 = 0 then .error .zeroDivision
    else .ok (t.foldl
      (fun r2 ea => Comp.addAt r2 ea.1 (-(Comp.get r ca.1 / ca.2 * ea.2))) r)

/-- The shared body of `Phase.amt` and `Phase.fraction`, continued. -/
def pyAmt (base t : Comp) : Except PyErr Comp :=
  let tot := Comp.total base
  match t.foldl (pyAmtStep t) (.ok base) with
  | .error err => .error err
  | .ok r =>
    if Comp.total t = 0 then .error .zeroDivision
    else .ok (Comp.set r "var" ((tot - Comp.total r) / Comp.total t))

/-- Embeds `Phase.amt` on a target given as a mapping (the dictionary overload; a
string target is first parsed by the excluded `parse_comp`). -/
def Phase.amt (p : Phase) (t : Comp) : Except PyErr Comp := pyAmt p.comp t

/-- Embeds `Phase.fraction`: as `amt` but on the unit composition. -/
def Phase.fraction (p : Phase) (t : Comp) : Except PyErr Comp :=
  pyAmt p.unit_comp t

/-- The phase with `index` erased: `add_phase` stores one and the same object
in `_phases` and `phase_dict` and then assigns its `index`; value-level
statements compare phases modulo that container-assigned field. -/
def Phase.core (p : Phase) : Phase := { p with index := none }

/-- The `PhaseData` container: the ordered `_phases` list, the name-keyed
`phase_dict`, the `phases_by_elt` / `phases_by_dim` defaultdicts of sets,
and the element `space`. -/
structure PhaseData : Type where
  _phases : List Phase
  phase_dict : List (String × Phase)
  phases_by_elt : List (Elt × List Phase)
  phases_by_dim : List (Nat × List Phase)
  space : List Elt

/-- Embeds `PhaseData.clear()`, also the state made by `__init__`. -/
def PhaseData.empty : PhaseData :=
  { _phases := [], phase_dict := [], phases_by_elt := [],
    phases_by_dim := [], space := [] }

/-- Embeds `PhaseData.add_phase`: update `phase_dict` (insert when the name is new,
replace only on strictly lower energy), append to `_phases`, assign
`phase.index = len(self._phases)` (the appended object and the one stored in
`phase_dict` are the same Python object, so the indexed copy `p` is used in
both), add the phase to `phases_by_elt[elt]` for every key of its
composition and to `phases_by_dim[len(comp)]`, and union its elements into
`space`. -/
def PhaseData.addPhase (d : PhaseData) (phase : Phase) : PhaseData :=
  let p := { phase with index := some (d._phases.length + 1) }
  let nm := p.name
  let pd' := match alistGet? d.phase_dict nm with
    | none => alistSet d.phase_dict nm p
    | some q => if p.energy < q.energy then alistSet d.phase_dict nm p
                else d.phase_dict
  { _phases := d._phases ++ [p]
    phase_dict := pd'
    phases_by_elt := p.comp.keys.foldl
      (fun m e => alistSet m e (pySetAdd ((alistGet? m e).getD []) p))
      d.phases_by_elt
    phases_by_dim := alistSet d.phases_by_dim p.comp.length
      (pySetAdd ((alistGet? d.phases_by_dim p.comp.length).getD []) p)
    space := p.comp.keys.foldl (fun s e => if e ∈ s then s else s ++ [e])
      d.space }

/-- Embeds `PhaseData.add_phases`: `add_phase` applied to each phase in order. -/
def PhaseData.addPhases (d : PhaseData) (ps : List Phase) : PhaseData :=
  ps.foldl PhaseData.addPhase d

/-- The set `phases_by_elt[e]` (a defaultdict: missing keys are empty). -/
def PhaseData.eltBucket (d : PhaseData) (e : Elt) : List Phase :=
  (alistGet? d.phases_by_elt e).getD []

/-- The set `phases_by_dim[n]` (a defaultdict: missing keys are empty). -/
def PhaseData.dimBucket (d : PhaseData) (n : Nat) : List Phase :=
  (alistGet? d.phases_by_dim n).getD []


/-- Read a heap cell (Python object store for the mutable dictionaries). -/
def heapGet (h : List Comp) (i : Nat) : Comp := h.getD i []

/-- Heap-level rendering of the body shared by `Phase.amt` and
`Phase.fraction`, making the mutation structure of the Python code explicit:
cell `bi` holds the base dictionary (`self.comp` for `amt`, `self.unit_comp`
for `fraction`), cell `ti` holds the caller's target dictionary, and
`residual = defaultdict(float, base)` allocates the fresh cell `ri` at the
end of the heap. Every write of the source (`residual[c2] -= pres*amt2`,
`residual['var'] = ...`) targets cell `ri` only; `self` is never written.
Returns the final heap and the residual's cell index. -/
def pyAmtHeapStep (ri ti : Nat) (acc : Except PyErr (List Comp)) (ca : Elt × ℚ) :
    Except PyErr (List Comp) :=
  match acc with
  | .error err => .error err
  | .ok hc =>
    if ca.2 = 0 then .error .zeroDivision
    else
      let pres := Comp.get (heapGet hc ri) ca.1 / ca.2
      .ok ((heapGet hc ti).foldl
        (fun hc2 ea =>
          hc2.set ri (Comp.addAt (heapGet hc2 ri) ea.1 (-(pres * ea.2)))) hc)

/-- The heap-level loop body is `pyAmtHeapStep`; `pyAmtHeap` folds it and
writes the final `'var'` entry, again into cell `ri` only. -/
def pyAmtHeap (h : List Comp) (bi ti : Nat) : Except PyErr (List Comp × Nat) :=
  let ri := h.length
  let h0 := h ++ [heapGet h bi]
  let tot := Comp.total (heapGet h0 ri)
  match (heapGet h0 ti).foldl (pyAmtHeapStep ri ti) (.ok h0) with
  | .error err => .error err
  | .ok hc =>
    let r := heapGet hc ri
    if Comp.total (heapGet hc ti) = 0 then .error .zeroDivision
    else .ok (hc.set ri (Comp.set r "var" ((tot - Comp.total r) / Comp.total (heapGet hc ti))), ri)

/-- Concrete phases and data used by the claim-level statements. -/
def phaseC1 : Phase :=
  getPhase (Phase.make (some [("Fe", 2), ("O", 3)]) (some 1) "" true none false "")

def psC2 : List Phase :=
  [mkPhase [("Fe", 2), ("O", 3)] (-3), mkPhase [("Fe", 2), ("O", 3)] (-5)]

def qC2 : Phase :=
  ((alistGet? (PhaseData.empty.addPhases psC2).phase_dict "Fe2O3").getD dummyPhase)

def pC3a : Phase := mkPhase [("Fe", 0), ("O", 1)] (-1)

def pC3b : Phase := mkPhase [("O", 1)] (-1)

def pC4 : Phase := mkPhase [("Fe", 0), ("O", 3)] (-1)

def pC4w : Phase := mkPhase [("Fe", 2), ("O", 3)] (-3)

def pC5 : Phase := mkPhase [("Fe", 1)] (-1)

def pC5w : Phase := mkPhase [("Fe", 1), ("Li", 5), ("O", 8)] (-1)

def tC5w : Comp := [("Li", 2), ("O", 1)]

def pC6 : Phase := mkPhase [("Fe", 2)] (-3)

def pC7 : Phase := mkPhase [("Fe", 1)] (-1)

def cC9 : Comp := [("Fe", 2), ("O", 3)]

def pC9 : Phase := getPhase (Phase.make (some cC9) (some (-3/2)) "" true none false "")

def getHeap (r : Except PyErr (List Comp × Nat)) : List Comp × Nat :=
  match r with
  | .ok x => x
  | .error _ => ([], 0)

def getComp (r : Except PyErr Comp) : Comp :=
  match r with
  | .ok c => c
  | .error _ => []

/-- The spec's notion of elemental support used by claim C3 (stated from the
spec's words, for comparison with the source's `set(self.comp)` key-set
check): the set of elements carrying a nonzero amount. -/
def specSupport (c : Comp) : Finset Elt :=
  ((c.filter (fun ea => decide (ea.2 ≠ 0))).map Prod.fst).toFinset

def hC10 : List Comp := [[("Fe", 1), ("Li", 5), ("O", 8)], [("Li", 2), ("O", 1)]]

def hC10run : List Comp × Nat := getHeap (pyAmtHeap hC10 0 1)

/-! ### Association-list and composition lemmas -/

theorem alistGet?_set_self {κ α : Type} [DecidableEq κ] (d : List (κ × α)) (k : κ) (v : α) :
    alistGet? (alistSet d k v) k = some v := by
  induction d with
  | nil => simp [alistSet, alistGet?]
  | cons kv r ih =>
    obtain ⟨k', v'⟩ := kv
    by_cases h : k' = k
    · simp [alistSet, h, alistGet?]
    · simp [alistSet, h, alistGet?, ih]

theorem alistGet?_set_ne {κ α : Type} [DecidableEq κ] (d : List (κ × α)) (k k' : κ) (v : α)
    (h : k' ≠ k) : alistGet? (alistSet d k v) k' = alistGet? d k' := by
  induction d with
  | nil =>
    simp only [alistSet, alistGet?]
    rw [if_neg (Ne.symm h)]
  | cons kv r ih =>
    obtain ⟨k0, v0⟩ := kv
    simp only [alistSet]
    by_cases h0 : k0 = k
    · subst h0
      rw [if_pos rfl]
      simp only [alistGet?]
      rw [if_neg (Ne.symm h), if_neg (Ne.symm h)]
    · rw [if_neg h0]
      simp only [alistGet?]
      by_cases h1 : k0 = k'
      · rw [if_pos h1, if_pos h1]
      · rw [if_neg h1, if_neg h1, ih]

theorem Comp.get_set_self (c : Comp) (k : Elt) (v : ℚ) : (c.set k v).get k = v := by
  simp [Comp.get, Comp.set, alistGet?_set_self]

theorem Comp.get_set_ne (c : Comp) (k k' : Elt) (v : ℚ) (h : k' ≠ k) :
    (c.set k v).get k' = c.get k' := by
  simp [Comp.get, Comp.set, alistGet?_set_ne _ _ _ _ h]

theorem Comp.get_addAt (c : Comp) (k e : Elt) (d : ℚ) :
    (c.addAt k d).get e = c.get e + (if e = k then d else 0) := by
  by_cases h : e = k
  · subst h; simp [Comp.addAt, Comp.get_set_self]
  · simp [Comp.addAt, Comp.get_set_ne _ _ _ _ h, h]

theorem Comp.get_of_not_mem_keys (c : Comp) (e : Elt) (h : e ∉ c.keys) : c.get e = 0 := by
  induction c with
  | nil => simp [Comp.get, alistGet?]
  | cons kv r ih =>
    obtain ⟨k0, v0⟩ := kv
    simp only [Comp.keys, List.map_cons, List.mem_cons] at h
    push_neg at h
    simp only [Comp.get, alistGet?]
    rw [if_neg (by simpa using h.1.symm)]
    exact ih h.2

theorem Comp.get_of_nodup_mem (c : Comp) (k : Elt) (v : ℚ)
    (hnd : c.keys.Nodup) (hm : (k, v) ∈ c) : c.get k = v := by
  induction c with
  | nil => simp at hm
  | cons kv r ih =>
    obtain ⟨k0, v0⟩ := kv
    simp only [Comp.keys, List.map_cons, List.nodup_cons] at hnd
    rcases List.mem_cons.mp hm with h | h
    · obtain ⟨h1, h2⟩ := Prod.mk.injEq .. ▸ h
      cases h
      simp [Comp.get, alistGet?]
    · have hk : k0 ≠ k := by
        intro hh
        exact hnd.1 (hh ▸ (by simpa [Comp.keys] using List.mem_map_of_mem Prod.fst h))
      simp only [Comp.get, alistGet?, if_neg hk]
      exact ih hnd.2 h

theorem Comp.total_set (c : Comp) (k : Elt) (v : ℚ) :
    (c.set k v).total = c.total + v - c.get k := by
  induction c with
  | nil => simp [Comp.set, alistSet, Comp.total, Comp.get, alistGet?]
  | cons kv r ih =>
    obtain ⟨k0, v0⟩ := kv
    by_cases h : k0 = k
    · subst h
      simp [Comp.set, alistSet, Comp.total, Comp.get, alistGet?]
      ring
    · simp only [Comp.set, alistSet, if_neg h, Comp.total, List.map_cons, List.sum_cons,
        Comp.get, alistGet?, if_neg h] at *
      rw [ih]
      ring

theorem Comp.total_addAt (c : Comp) (k : Elt) (d : ℚ) :
    (c.addAt k d).total = c.total + d := by
  rw [Comp.addAt, Comp.total_set]
  ring

theorem Comp.keys_cons (k0 : Elt) (v0 : ℚ) (r : Comp) :
    Comp.keys ((k0, v0) :: r) = k0 :: Comp.keys r := rfl

theorem Comp.keys_nil : Comp.keys [] = [] := rfl

theorem Comp.keys_append (c d : Comp) : Comp.keys (c ++ d) = c.keys ++ d.keys := by
  simp [Comp.keys]

theorem Comp.keys_set_subset (c : Comp) (k : Elt) (v : ℚ) :
    ∀ e, e ∈ (c.set k v).keys → e ∈ c.keys ∨ e = k := by
  induction c with
  | nil =>
    intro e he
    simp only [Comp.set, alistSet, Comp.keys_cons, Comp.keys_nil, List.mem_singleton] at he
    exact Or.inr he
  | cons kv r ih =>
    obtain ⟨k0, v0⟩ := kv
    intro e he
    simp only [Comp.set, alistSet] at he
    by_cases h0 : k0 = k
    · rw [if_pos h0, Comp.keys_cons] at he
      rcases List.mem_cons.mp he with hh | hh
      · exact Or.inr hh
      · exact Or.inl (by rw [Comp.keys_cons]; exact List.mem_cons_of_mem _ hh)
    · rw [if_neg h0, Comp.keys_cons] at he
      rcases List.mem_cons.mp he with hh | hh
      · exact Or.inl (by subst hh; rw [Comp.keys_cons]; exact List.mem_cons_self _ _)
      · rcases ih e hh with hc | hc
        · exact Or.inl (by rw [Comp.keys_cons]; exact List.mem_cons_of_mem _ hc)
        · exact Or.inr hc

theorem Comp.set_of_not_mem (c : Comp) (k : Elt) (v : ℚ) (h : k ∉ c.keys) :
    c.set k v = c ++ [(k, v)] := by
  induction c with
  | nil => simp [Comp.set, alistSet]
  | cons kv r ih =>
    obtain ⟨k0, v0⟩ := kv
    simp only [Comp.keys_cons, List.mem_cons] at h
    push_neg at h
    have hne : k0 ≠ k := Ne.symm h.1
    simp only [Comp.set, alistSet, if_neg hne, List.cons_append, List.cons.injEq, true_and]
    exact ih h.2

theorem Comp.filter_ne_of_not_mem (c : Comp) (k : Elt) (h : k ∉ c.keys) :
    c.filter (fun ea => decide (ea.1 ≠ k)) = c := by
  induction c with
  | nil => rfl
  | cons kv r ih =>
    obtain ⟨k0, v0⟩ := kv
    simp only [Comp.keys_cons, List.mem_cons] at h
    push_neg at h
    simp only [List.filter_cons]
    rw [if_pos (by simpa using Ne.symm h.1)]
    rw [ih h.2]

theorem Comp.totalExcept_of_not_mem (c : Comp) (k : Elt) (h : k ∉ c.keys) :
    c.totalExcept k = c.total := by
  rw [Comp.totalExcept, Comp.filter_ne_of_not_mem c k h]
  rfl

theorem Comp.totalExcept_set_self (c : Comp) (k : Elt) (v : ℚ) (h : k ∉ c.keys) :
    (c.set k v).totalExcept k = c.total := by
  rw [Comp.set_of_not_mem c k v h, Comp.totalExcept, List.filter_append]
  have h1 : List.filter (fun ea => decide (ea.1 ≠ k)) [(k, v)] = [] := by simp
  rw [h1, List.append_nil, ← Comp.totalExcept, Comp.totalExcept_of_not_mem c k h]

theorem Comp.keys_addAt_subset (c : Comp) (k : Elt) (d : ℚ) :
    ∀ e, e ∈ (c.addAt k d).keys → e ∈ c.keys ∨ e = k :=
  fun e he => Comp.keys_set_subset c k _ e he

theorem Comp.get_set_self_var (c : Comp) (k : Elt) (v : ℚ) (e : Elt) (h : e ≠ k) :
    (c.set k v).get e = c.get e := Comp.get_set_ne c k e v h

/-! ### Index-irrelevance of the value-level `Phase` fields -/

theorem Phase.name_setIndex (p : Phase) (i : Option Nat) :
    ({ p with index := i } : Phase).name = p.name := by
  cases p
  rfl

theorem Phase.energy_setIndex (p : Phase) (i : Option Nat) :
    ({ p with index := i } : Phase).energy = p.energy := rfl

theorem Phase.comp_setIndex (p : Phase) (i : Option Nat) :
    ({ p with index := i } : Phase).comp = p.comp := rfl

theorem Phase.core_setIndex (p : Phase) (i : Option Nat) :
    ({ p with index := i } : Phase).core = p.core := rfl

theorem Phase.pyEq_setIndex (p q : Phase) (i : Option Nat) :
    ({ p with index := i } : Phase).pyEq q = p.pyEq q := rfl

theorem Phase.pyEq_setIndex_right (p q : Phase) (i : Option Nat) :
    p.pyEq { q with index := i } = p.pyEq q := rfl

theorem Phase.hashKey_setIndex (p : Phase) (i : Option Nat) :
    ({ p with index := i } : Phase).hashKey = p.hashKey := by
  cases p
  rfl

/-! ### `Phase.__eq__` basics -/

theorem Phase.pyEq_refl (p : Phase) : p.pyEq p = true := by
  simp [Phase.pyEq]

theorem Phase.pyEq_eltFinset {p q : Phase} (h : p.pyEq q = true) :
    p.comp.eltFinset = q.comp.eltFinset := by
  by_contra hne
  rw [Phase.pyEq, if_pos hne] at h
  exact Bool.false_ne_true h

/-! ### Lemmas about the residual-update loops of `amt` / `fraction` -/

theorem Comp.get_cons (k : Elt) (v : ℚ) (r : Comp) (e : Elt) :
    Comp.get ((k, v) :: r) e = if k = e then v else r.get e := by
  by_cases h : k = e <;> simp [Comp.get, alistGet?, h]

theorem pyAmt_inner_get (pres : ℚ) :
    ∀ (l : List (Elt × ℚ)), (Comp.keys l).Nodup →
    ∀ (r : Comp) (e : Elt),
    Comp.get (l.foldl (fun r2 ea => Comp.addAt r2 ea.1 (-(pres * ea.2))) r) e =
      Comp.get r e - pres * Comp.get l e := by
  intro l
  induction l with
  | nil =>
    intro _ r e
    simp [Comp.get, alistGet?]
  | cons ca rest ih =>
    intro hnd r e
    obtain ⟨c, a⟩ := ca
    rw [Comp.keys_cons, List.nodup_cons] at hnd
    simp only [List.foldl_cons]
    rw [ih hnd.2 _ e, Comp.get_addAt, Comp.get_cons]
    by_cases h : c = e
    · subst h
      rw [if_pos rfl, if_pos rfl, Comp.get_of_not_mem_keys rest c hnd.1]
      ring
    · rw [if_neg (Ne.symm h), if_neg h]
      ring

theorem pyAmt_inner_total (pres : ℚ) :
    ∀ (l : List (Elt × ℚ)) (r : Comp),
    Comp.total (l.foldl (fun r2 ea => Comp.addAt r2 ea.1 (-(pres * ea.2))) r) =
      r.total - pres * Comp.total l := by
  intro l
  induction l with
  | nil =>
    intro r
    simp [Comp.total]
  | cons ca rest ih =>
    intro r
    obtain ⟨c, a⟩ := ca
    simp only [List.foldl_cons]
    rw [ih, Comp.total_addAt]
    simp only [Comp.total, List.map_cons, List.sum_cons]
    ring

theorem pyAmt_inner_keys (pres : ℚ) :
    ∀ (l : List (Elt × ℚ)) (r : Comp) (e : Elt),
    e ∈ (l.foldl (fun r2 ea => Comp.addAt r2 ea.1 (-(pres * ea.2))) r).keys →
    e ∈ r.keys ∨ e ∈ Comp.keys l := by
  intro l
  induction l with
  | nil =>
    intro r e he
    exact Or.inl he
  | cons ca rest ih =>
    intro r e he
    obtain ⟨c, a⟩ := ca
    simp only [List.foldl_cons] at he
    rcases ih _ e he with h | h
    · rcases Comp.keys_addAt_subset r c _ e h with h' | h'
      · exact Or.inl h'
      · exact Or.inr (by rw [Comp.keys_cons]; exact h' ▸ List.mem_cons_self _ _)
    · exact Or.inr (by rw [Comp.keys_cons]; exact List.mem_cons_of_mem _ h)

theorem pyAmtStep_foldl_error (t : Comp) (l : List (Elt × ℚ)) (z : PyErr) :
    l.foldl (pyAmtStep t) (.error z) = .error z := by
  induction l with
  | nil => rfl
  | cons ca rest ih => simpa [pyAmtStep] using ih

theorem pyAmtStep_foldl_zero (t : Comp) :
    ∀ (l : List (Elt × ℚ)), (∃ c, (c, (0 : ℚ)) ∈ l) →
    ∀ (r : Comp), l.foldl (pyAmtStep t) (.ok r) = .error .zeroDivision := by
  intro l
  induction l with
  | nil =>
    rintro ⟨c, hc⟩
    simp at hc
  | cons ca rest ih =>
    rintro ⟨c, hc⟩ r
    obtain ⟨c0, a0⟩ := ca
    rcases List.mem_cons.mp hc with h | h
    · have ha0 : a0 = 0 := ((Prod.ext_iff.mp h).2).symm
      subst ha0
      simp only [List.foldl_cons]
      have hstep : pyAmtStep t (.ok r) (c0, 0) = .error .zeroDivision := by
        simp [pyAmtStep]
      rw [hstep]
      exact pyAmtStep_foldl_error t rest _
    · by_cases h0 : a0 = 0
      · simp only [List.foldl_cons, pyAmtStep, h0, if_pos rfl]
        exact pyAmtStep_foldl_error t rest _
      · simp only [List.foldl_cons, pyAmtStep, if_neg h0]
        exact ih ⟨c, h⟩ _

theorem pyAmtStep_foldl_ok (t : Comp) (htnd : (Comp.keys t).Nodup) (base : Comp) :
    ∀ (l : List (Elt × ℚ)), (∀ ea ∈ l, (ea.2 : ℚ) ≠ 0) →
    ∀ (r : Comp) (P : ℚ),
      (∀ e, Comp.get r e = Comp.get base e - P * Comp.get t e) →
      Comp.total r = Comp.total base - P * Comp.total t →
      (∀ e, e ∈ Comp.keys r → e ∈ Comp.keys base ∨ e ∈ Comp.keys t) →
      ∃ (r' : Comp) (P' : ℚ),
        l.foldl (pyAmtStep t) (.ok r) = .ok r' ∧
        (∀ e, Comp.get r' e = Comp.get base e - P' * Comp.get t e) ∧
        Comp.total r' = Comp.total base - P' * Comp.total t ∧
        (∀ e, e ∈ Comp.keys r' → e ∈ Comp.keys base ∨ e ∈ Comp.keys t) := by
  intro l
  induction l with
  | nil =>
    intro _ r P hget htot hkeys
    exact ⟨r, P, rfl, hget, htot, hkeys⟩
  | cons ca rest ih =>
    intro hnz r P hget htot hkeys
    obtain ⟨c, a⟩ := ca
    have ha : a ≠ 0 := hnz (c, a) (List.mem_cons_self _ _)
    simp only [List.foldl_cons, pyAmtStep, if_neg ha]
    set pres := Comp.get r c / a with hpres
    set r1 := t.foldl (fun r2 ea => Comp.addAt r2 ea.1 (-(pres * ea.2))) r with hr1
    have hget1 : ∀ e, Comp.get r1 e = Comp.get base e - (P + pres) * Comp.get t e := by
      intro e
      rw [hr1, pyAmt_inner_get pres t htnd r e, hget e]
      ring
    have htot1 : Comp.total r1 = Comp.total base - (P + pres) * Comp.total t := by
      rw [hr1, pyAmt_inner_total pres t r, htot]
      ring
    have hkeys1 : ∀ e, e ∈ Comp.keys r1 → e ∈ Comp.keys base ∨ e ∈ Comp.keys t := by
      intro e he
      rcases pyAmt_inner_keys pres t r e (hr1 ▸ he) with h | h
      · exact hkeys e h
      · exact Or.inr h
    exact ih (fun ea hea => hnz ea (List.mem_cons_of_mem _ hea)) r1 (P + pres)
      hget1 htot1 hkeys1

theorem Comp.mem_keys_of_mem {c : Comp} {ea : Elt × ℚ} (h : ea ∈ c) :
    ea.1 ∈ Comp.keys c := List.mem_map_of_mem Prod.fst h

theorem pyAmt_ok (base t : Comp)
    (hbnd : (Comp.keys base).Nodup) (hbvar : "var" ∉ Comp.keys base)
    (htnd : (Comp.keys t).Nodup) (htvar : "var" ∉ Comp.keys t)
    (hnz : ∀ ea ∈ t, (ea.2 : ℚ) ≠ 0) (htot : Comp.total t ≠ 0) :
    ∃ r : Comp, pyAmt base t = .ok r ∧
      (∀ ea ∈ t, Comp.get r ea.1 = Comp.get base ea.1 - Comp.get r "var" * ea.2) ∧
      (∀ e ∈ Comp.keys base, e ∉ Comp.keys t → Comp.get r e = Comp.get base e) ∧
      Comp.get r "var" =
        (Comp.total base - Comp.totalExcept r "var") / Comp.total t := by
  obtain ⟨r0, P, hfold, hget, htotr, hkeys⟩ :=
    pyAmtStep_foldl_ok t htnd base t hnz base 0
      (by intro e; ring) (by ring) (fun e he => Or.inl he)
  have hvar0 : "var" ∉ Comp.keys r0 := by
    intro hv
    rcases hkeys _ hv with h | h
    · exact hbvar h
    · exact htvar h
  have hP : (Comp.total base - Comp.total r0) / Comp.total t = P := by
    rw [htotr]
    field_simp
  refine ⟨Comp.set r0 "var" ((Comp.total base - Comp.total r0) / Comp.total t),
    ?_, ?_, ?_, ?_⟩
  · simp only [pyAmt, hfold]
    rw [if_neg htot]
  · intro ea hea
    have h1 : ea.1 ≠ "var" := fun hh => htvar (hh ▸ Comp.mem_keys_of_mem hea)
    rw [Comp.get_set_ne _ _ _ _ h1, Comp.get_set_self, hP, hget ea.1,
      Comp.get_of_nodup_mem t ea.1 ea.2 htnd (by simpa using hea)]
  · intro e heb het
    have h1 : e ≠ "var" := fun hh => hbvar (hh ▸ heb)
    rw [Comp.get_set_ne _ _ _ _ h1, hget e, Comp.get_of_not_mem_keys t e het]
    ring
  · rw [Comp.get_set_self, Comp.totalExcept_set_self _ _ _ hvar0]

theorem Comp.total_pos (t : Comp) (hpos : ∀ ea ∈ t, (0:ℚ) < ea.2) (hne : t ≠ []) :
    0 < Comp.total t := by
  rw [Comp.total]
  apply List.sum_pos
  · intro x hx
    obtain ⟨ea, hea, rfl⟩ := List.mem_map.mp hx
    exact hpos ea hea
  · simpa using hne

/-! ### Claim-level theorems -/

/-- C1: the spec claims the invariant
`total_energy = energy * n_atoms = energy_pfu * n_nominal_atoms` holds after
an assignment to any of the three energy views. The code violates it: for
`Phase({'Fe': 2, 'O': 3}, 1, per_atom=True)` (construction goes through the
`energy` setter) the stored `energy_pfu` is `1/5`, so
`energy_pfu * n_nominal_atoms = 1 ≠ 5 = total_energy`; moreover the
`energy_pfu` setter updates only `_energy_pfu`, leaving `energy` and
`total_energy` stale. This contradicts the source's own docstring (`energy
per Fe2O3`, which for `Fe2O3` at 1 eV/atom is 5 eV): a code bug. -/
theorem C1_energy_views_bug :
    Phase.make (some [("Fe", 2), ("O", 3)]) (some 1) "" true none false "" = .ok phaseC1 ∧
    Comp.total phaseC1.comp = 5 ∧
    Comp.total phaseC1.nom_comp = 5 ∧
    phaseC1.energy = 1 ∧
    phaseC1.total_energy = 5 ∧
    phaseC1.energy_pfu = 1/5 ∧
    phaseC1.total_energy ≠ phaseC1.energy_pfu * Comp.total phaseC1.nom_comp ∧
    (phaseC1.setEnergyPfu 7).energy_pfu = 7 ∧
    (phaseC1.setEnergyPfu 7).total_energy = 5 ∧
    (phaseC1.setEnergyPfu 7).energy = 1 := by
  refine ⟨rfl, by decide, by decide, by decide, by decide, by decide, by decide,
    by decide, by decide, by decide⟩

/-- C6: the spec states that `from_phases` on a single-entry mapping returns
that constituent phase itself; the code instead evaluates
`phase_dict.keys()[0]`, which in Python 3 raises `TypeError` (`dict_keys` is
not subscriptable), so no phase is returned at all — a code bug (the spec
itself flags this branch as a defect). -/
theorem C6_from_phases_single_entry_bug :
    Phase.from_phases [(pC6, 1)] = .error .typeError := rfl

theorem pyAmt_zero_entry (base t : Comp) (c : Elt) (h : (c, (0:ℚ)) ∈ t) :
    pyAmt base t = .error .zeroDivision := by
  simp only [pyAmt, pyAmtStep_foldl_zero t t ⟨c, h⟩ base]

/-- C7: whenever the target composition contains a key with amount zero,
`amt` and `fraction` hit `pres = residual[c]/amt` with `amt = 0` and fail
with the arithmetic error `ZeroDivisionError`, which propagates uncaught
(modelled by the `Except` error value). -/
theorem C7_zero_amount_error (p : Phase) (t : Comp) (c : Elt)
    (h : (c, (0:ℚ)) ∈ t) :
    p.amt t = .error .zeroDivision ∧ p.fraction t = .error .zeroDivision :=
  ⟨pyAmt_zero_entry p.comp t c h, pyAmt_zero_entry p.unit_comp t c h⟩

/-- C7 witness at `Phase({'Fe': 1}, -1)` against the target `{'Li': 0}`. -/
theorem C7_zero_amount_error_witness :
    pC7.amt [("Li", 0)] = .error .zeroDivision ∧
    pC7.fraction [("Li", 0)] = .error .zeroDivision :=
  C7_zero_amount_error pC7 [("Li", 0)] "Li" (by decide)

/-- C5 (amended: the target must additionally be non-empty — see the
counterexample `C5_empty_target_counterexample`): for every phase `p` and
every non-empty target composition `t` with positive amounts (the data model
only admits non-negative amounts; the claim excludes zero) and no key
`'var'`, `amt` succeeds and the residual `r` satisfies
`r[e] = p.comp[e] - r['var'] * t[e]` on the keys of `t`, the elements of `p`
outside `t` are unchanged, and `r['var']` is the extracted amount
`sum(p.comp.values()) - sum(residual.values())` normalized by
`sum(t.values())`. The `Nodup` and `'var' ∉ keys` hypotheses on `p.comp`
embed the data model (a Python dict keyed by element symbols). -/
theorem C5_amt_residual (p : Phase) (t : Comp)
    (hpk : (Comp.keys p.comp).Nodup) (hpvar : "var" ∉ Comp.keys p.comp)
    (htk : (Comp.keys t).Nodup) (htvar : "var" ∉ Comp.keys t)
    (hpos : ∀ ea ∈ t, (0:ℚ) < ea.2) (hne : t ≠ []) :
    ∃ r : Comp, p.amt t = .ok r ∧
      (∀ ea ∈ t, Comp.get r ea.1 = Comp.get p.comp ea.1 - Comp.get r "var" * ea.2) ∧
      (∀ e ∈ Comp.keys p.comp, e ∉ Comp.keys t → Comp.get r e = Comp.get p.comp e) ∧
      Comp.get r "var" =
        (Comp.total p.comp - Comp.totalExcept r "var") / Comp.total t := by
  have htot : Comp.total t ≠ 0 := ne_of_gt (Comp.total_pos t hpos hne)
  exact pyAmt_ok p.comp t hpk hpvar htk htvar
    (fun ea h => ne_of_gt (hpos ea h)) htot

/-- C5 counterexample to the claim as frozen: the empty target composition
vacuously has all amounts nonzero and no key `'var'`, yet
`Phase({'Fe': 1}, -1).amt({})` produces no residual at all — the final
normalization divides by `sum({}.values()) = 0` and raises
`ZeroDivisionError`. -/
theorem C5_empty_target_counterexample :
    pC5.amt [] = .error .zeroDivision := rfl

/-- C5 witness: the spec's fixed numeric example
`Phase({'Fe': 1, 'Li': 5, 'O': 8}, -1).amt('Li2O')` (`'Li2O'` parses to
`{'Li': 2, 'O': 1}`); the residual satisfies the claimed equations and the
extracted `'var'` amount is the determinate value `8`. -/
theorem C5_amt_residual_witness :
    (∃ r : Comp, pC5w.amt tC5w = .ok r ∧
      (∀ ea ∈ tC5w, Comp.get r ea.1 = Comp.get pC5w.comp ea.1 - Comp.get r "var" * ea.2) ∧
      (∀ e ∈ Comp.keys pC5w.comp, e ∉ Comp.keys tC5w → Comp.get r e = Comp.get pC5w.comp e) ∧
      Comp.get r "var" =
        (Comp.total pC5w.comp - Comp.totalExcept r "var") / Comp.total tC5w) ∧
    Comp.get (getComp (pC5w.amt tC5w)) "var" = 8 :=
  ⟨C5_amt_residual pC5w tC5w (by decide) (by decide) (by decide) (by decide)
    (by decide) (by decide), by decide⟩

/-- C8: `Phase` construction raises the construction error `PhaseError`
whenever composition or energy is missing (`None`); construction with an
empty or all-zero composition (`sum(composition.values()) = 0`) also fails —
with the arithmetic error raised by the `unit_comp` normalization of a
zero-total mapping. -/
theorem C8_construction_errors :
    (∀ (e : Option ℚ) (d : String) (pa : Bool) (s : Option ℚ) (tt : Bool) (nm : String),
      Phase.make none e d pa s tt nm = .error .phaseError) ∧
    (∀ (c : Comp) (d : String) (pa : Bool) (s : Option ℚ) (tt : Bool) (nm : String),
      Phase.make (some c) none d pa s tt nm = .error .phaseError) ∧
    (∀ (c : Comp) (e : ℚ) (d : String) (pa : Bool) (s : Option ℚ) (tt : Bool) (nm : String),
      Comp.total c = 0 →
      Phase.make (some c) (some e) d pa s tt nm = .error .zeroDivision) := by
  refine ⟨?_, ?_, ?_⟩
  · intro e d pa s tt nm
    cases e <;> rfl
  · intro c d pa s tt nm
    rfl
  · intro c e d pa s tt nm h
    have hu : unitComp c = none := by rw [unitComp, if_pos h]
    simp only [Phase.make, hu]

/-- C8 witness: missing composition, missing energy, and the all-zero
composition `{'Fe': 0}` (total `0`) all fail as stated. -/
theorem C8_construction_errors_witness :
    Phase.make none (some 1) "" true none false "" = .error .phaseError ∧
    Phase.make (some [("Fe", 1)]) none "" true none false "" = .error .phaseError ∧
    Phase.make (some [("Fe", 0)]) (some 2) "" true none false "" = .error .zeroDivision :=
  ⟨C8_construction_errors.1 (some 1) "" true none false "",
   C8_construction_errors.2.1 [("Fe", 1)] "" true none false "",
   C8_construction_errors.2.2 [("Fe", 0)] 2 "" true none false "" (by decide)⟩

/-- C9: for a valid composition (nonzero total) and any energy `e`,
`Phase(comp, e, per_atom=True).energy = e`, and dividing the recomputed
`total_energy = e * sum(comp.values())` back by the atom count returns `e`
(exactly, in rational arithmetic — in particular within the claimed 1e-9). -/
theorem C9_energy_round_trip (c : Comp) (e : ℚ) (p : Phase)
    (h : Phase.make (some c) (some e) "" true none false "" = .ok p) :
    p.energy = e ∧ |p.total_energy / Comp.total c - e| ≤ 1/1000000000 := by
  rcases hu : unitComp c with _ | u
  · rw [Phase.make] at h
    simp only [hu] at h
    exact Except.noConfusion h
  · have htot : Comp.total c ≠ 0 := by
      intro hh
      rw [unitComp] at hu
      rw [if_pos hh] at hu
      exact Option.noConfusion hu
    rw [Phase.make] at h
    simp only [hu, if_true] at h
    have hp := (Except.ok.injEq _ _).mp h
    subst hp
    constructor
    · rfl
    · show |e * Comp.total c / Comp.total c - e| ≤ 1/1000000000
      rw [mul_div_assoc, div_self htot, mul_one, sub_self, abs_zero]
      norm_num

/-- C9 witness at `comp = {'Fe': 2, 'O': 3}`, `e = -3/2`. -/
theorem C9_energy_round_trip_witness :
    pC9.energy = -3/2 ∧ |pC9.total_energy / Comp.total cC9 - (-3/2)| ≤ 1/1000000000 :=
  C9_energy_round_trip cC9 (-3/2) pC9 rfl

/-- C3 counterexample: the claim as frozen says equality holds iff the
phases have the same *nonzero* support (plus the tolerance checks).
`Phase({'Fe': 0, 'O': 1}, -1)` and `Phase({'O': 1}, -1)` have identical
nonzero support `{'O'}`, equal energies and identical unit fractions on that
support, yet `__eq__` returns `False`, because the source compares
`set(self.comp)` — the full key sets `{'Fe', 'O'}` vs `{'O'}`, zero amounts
included. -/
theorem C3_support_counterexample :
    Phase.make (some [("Fe", 0), ("O", 1)]) (some (-1)) "" true none false "" = .ok pC3a ∧
    Phase.make (some [("O", 1)]) (some (-1)) "" true none false "" = .ok pC3b ∧
    specSupport pC3a.comp = specSupport pC3b.comp ∧
    |pC3a.energy - pC3b.energy| ≤ 1/1000000 ∧
    (∀ e ∈ specSupport pC3a.comp,
      |Comp.get pC3a.unit_comp e - Comp.get pC3b.unit_comp e| ≤ 1/1000000) ∧
    pC3a.pyEq pC3b = false := by
  refine ⟨rfl, rfl, by decide, by decide, by decide, by decide⟩

/-- C3 amended: `__eq__` compares the *key sets* of the stored compositions
(zero amounts included), not the nonzero support: `p == q` iff
`set(p.comp) == set(q.comp)`, the per-atom energies are within `1e-6`, and
the unit-composition entries agree within `1e-6` on every key of `p.comp`. -/
theorem C3_eq_amended (p q : Phase) :
    p.pyEq q = true ↔
      (Comp.eltFinset p.comp = Comp.eltFinset q.comp ∧
       |p.energy - q.energy| ≤ 1/1000000 ∧
       ∀ k ∈ Comp.keys p.comp,
         |Comp.get p.unit_comp k - Comp.get q.unit_comp k| ≤ 1/1000000) := by
  by_cases hs : Comp.eltFinset p.comp = Comp.eltFinset q.comp
  · by_cases he : |p.energy - q.energy| > 1/1000000
    · rw [Phase.pyEq, if_neg (not_ne_iff.mpr hs), if_pos he]
      simp only [Bool.false_eq_true, false_iff]
      rintro ⟨-, h2, -⟩
      exact absurd h2 (not_le.mpr he)
    · rw [Phase.pyEq, if_neg (not_ne_iff.mpr hs), if_neg he]
      rw [List.all_eq_true]
      constructor
      · intro h
        refine ⟨hs, not_lt.mp he, ?_⟩
        intro k hk
        have hkk := h k hk
        rw [decide_eq_true_eq] at hkk
        exact not_lt.mp hkk
      · rintro ⟨-, -, h3⟩ k hk
        rw [decide_eq_true_eq]
        exact not_lt.mpr (h3 k hk)
  · rw [Phase.pyEq, if_pos hs]
    simp only [Bool.false_eq_true, false_iff]
    rintro ⟨h1, -, -⟩
    exact hs h1

/-! ### `PhaseData.add_phase` dictionary lemmas (claim C2) -/

theorem addPhases_append (d : PhaseData) (ps : List Phase) (p : Phase) :
    d.addPhases (ps ++ [p]) = (d.addPhases ps).addPhase p := by
  simp [PhaseData.addPhases, List.foldl_append]

theorem phases_addPhase (d : PhaseData) (p : Phase) :
    (d.addPhase p)._phases =
      d._phases ++ [{ p with index := some (d._phases.length + 1) }] := by
  simp only [PhaseData.addPhase]

theorem phase_dict_addPhase_none (d : PhaseData) (p : Phase)
    (h : alistGet? d.phase_dict p.name = none) :
    (d.addPhase p).phase_dict =
      alistSet d.phase_dict p.name { p with index := some (d._phases.length + 1) } := by
  simp only [PhaseData.addPhase, Phase.name_setIndex, h]

theorem phase_dict_addPhase_some_lt (d : PhaseData) (p q : Phase)
    (h : alistGet? d.phase_dict p.name = some q) (hlt : p.energy < q.energy) :
    (d.addPhase p).phase_dict =
      alistSet d.phase_dict p.name { p with index := some (d._phases.length + 1) } := by
  simp only [PhaseData.addPhase, Phase.name_setIndex, Phase.energy_setIndex, h, if_pos hlt]

theorem phase_dict_addPhase_some_ge (d : PhaseData) (p q : Phase)
    (h : alistGet? d.phase_dict p.name = some q) (hge : ¬ p.energy < q.energy) :
    (d.addPhase p).phase_dict = d.phase_dict := by
  simp only [PhaseData.addPhase, Phase.name_setIndex, Phase.energy_setIndex, h, if_neg hge]

theorem phase_dict_lookup_addPhase_ne (d : PhaseData) (p : Phase) (nm : String)
    (hne : nm ≠ p.name) :
    alistGet? (d.addPhase p).phase_dict nm = alistGet? d.phase_dict nm := by
  rcases h : alistGet? d.phase_dict p.name with _ | q
  · rw [phase_dict_addPhase_none d p h, alistGet?_set_ne _ _ _ _ hne]
  · by_cases hlt : p.energy < q.energy
    · rw [phase_dict_addPhase_some_lt d p q h hlt, alistGet?_set_ne _ _ _ _ hne]
    · rw [phase_dict_addPhase_some_ge d p q h hlt]

theorem phase_dict_none_iff (ps : List Phase) (nm : String) :
    alistGet? (PhaseData.empty.addPhases ps).phase_dict nm = none ↔
      ∀ r ∈ ps, r.name ≠ nm := by
  induction ps using List.reverseRecOn with
  | nil => simp [PhaseData.addPhases, PhaseData.empty, alistGet?]
  | append_singleton ps p ih =>
    rw [addPhases_append]
    by_cases hnm : nm = p.name
    · subst hnm
      constructor
      · intro h
        exfalso
        rcases hold : alistGet? (PhaseData.empty.addPhases ps).phase_dict p.name
          with _ | q0
        · rw [phase_dict_addPhase_none _ p hold, alistGet?_set_self] at h
          exact Option.noConfusion h
        · by_cases hlt : p.energy < q0.energy
          · rw [phase_dict_addPhase_some_lt _ p q0 hold hlt, alistGet?_set_self] at h
            exact Option.noConfusion h
          · rw [phase_dict_addPhase_some_ge _ p q0 hold hlt, hold] at h
            exact Option.noConfusion h
      · intro hall
        exact absurd rfl (hall p (List.mem_append_right _ (List.mem_singleton_self p)))
    · rw [phase_dict_lookup_addPhase_ne _ p nm hnm, ih]
      constructor
      · intro hall r hr
        rcases List.mem_append.mp hr with hr | hr
        · exact hall r hr
        · rw [List.mem_singleton] at hr
          subst hr
          exact fun hh => hnm hh.symm
      · intro hall r hr
        exact hall r (List.mem_append_left _ hr)

theorem addPhases_phases_core (ps : List Phase) :
    (PhaseData.empty.addPhases ps)._phases.map Phase.core = ps.map Phase.core := by
  induction ps using List.reverseRecOn with
  | nil => rfl
  | append_singleton ps p ih =>
    rw [addPhases_append, phases_addPhase, List.map_append, ih, List.map_append]
    simp [Phase.core_setIndex]

theorem phase_dict_min_aux (ps : List Phase) :
    ∀ (nm : String) (q : Phase),
    alistGet? (PhaseData.empty.addPhases ps).phase_dict nm = some q →
    q.name = nm ∧
    (∀ r ∈ ps, r.name = nm → q.energy ≤ r.energy) ∧
    (∃ l₁ x l₂, ps = l₁ ++ x :: l₂ ∧ x.name = nm ∧ q.core = x.core ∧
      ∀ r ∈ l₁, r.name = nm → x.energy < r.energy) := by
  induction ps using List.reverseRecOn with
  | nil =>
    intro nm q h
    simp [PhaseData.addPhases, PhaseData.empty, alistGet?] at h
  | append_singleton ps p ih =>
    intro nm q h
    rw [addPhases_append] at h
    by_cases hnm : nm = p.name
    · subst hnm
      rcases hold : alistGet? (PhaseData.empty.addPhases ps).phase_dict p.name
        with _ | q0
      · rw [phase_dict_addPhase_none _ p hold, alistGet?_set_self] at h
        obtain rfl := Option.some.inj h
        have hnone : ∀ r ∈ ps, r.name ≠ p.name :=
          (phase_dict_none_iff ps p.name).mp hold
        refine ⟨Phase.name_setIndex p _, ?_, ps, p, [], by simp, rfl,
          Phase.core_setIndex p _, ?_⟩
        · intro r hr hrn
          rcases List.mem_append.mp hr with hr | hr
          · exact absurd hrn (hnone r hr)
          · rw [List.mem_singleton] at hr
            subst hr
            rw [Phase.energy_setIndex]
        · intro r hr hrn
          exact absurd hrn (hnone r hr)
      · obtain ⟨hq0n, hq0min, l₁, x, l₂, hps, hxn, hq0x, hxmin⟩ :=
          ih p.name q0 hold
        by_cases hlt : p.energy < q0.energy
        · rw [phase_dict_addPhase_some_lt _ p q0 hold hlt, alistGet?_set_self] at h
          obtain rfl := Option.some.inj h
          refine ⟨Phase.name_setIndex p _, ?_, ps, p, [], by simp, rfl,
            Phase.core_setIndex p _, ?_⟩
          · intro r hr hrn
            rcases List.mem_append.mp hr with hr | hr
            · rw [Phase.energy_setIndex]
              exact le_of_lt (lt_of_lt_of_le hlt (hq0min r hr hrn))
            · rw [List.mem_singleton] at hr
              subst hr
              rw [Phase.energy_setIndex]
          · intro r hr hrn
            exact lt_of_lt_of_le hlt (hq0min r hr hrn)
        · rw [phase_dict_addPhase_some_ge _ p q0 hold hlt, hold] at h
          obtain rfl := Option.some.inj h
          refine ⟨hq0n, ?_, l₁, x, l₂ ++ [p], by rw [hps]; simp, hxn, hq0x, hxmin⟩
          · intro r hr hrn
            rcases List.mem_append.mp hr with hr | hr
            · exact hq0min r hr hrn
            · rw [List.mem_singleton] at hr
              subst hr
              exact not_lt.mp hlt
    · rw [phase_dict_lookup_addPhase_ne _ p nm hnm] at h
      obtain ⟨h1, h2, l₁, x, l₂, hps, hxn, hqx, hmin⟩ := ih nm q h
      refine ⟨h1, ?_, l₁, x, l₂ ++ [p], by rw [hps]; simp, hxn, hqx, hmin⟩
      · intro r hr hrn
        rcases List.mem_append.mp hr with hr | hr
        · exact h2 r hr hrn
        · rw [List.mem_singleton] at hr
          subst hr
          exact absurd hrn.symm hnm

/-- C2: for every sequence of `add_phase` calls starting from an empty
`PhaseData` and every name, the `phase_dict` entry for that name (when
present) holds a phase of that name with minimal energy among all added
phases of that name; on an exact energy tie the earlier-added phase is kept
(the source replaces only on strictly lower energy), and every added phase
remains in the ordered `phases` list (`Phase.core` erases only the
container-assigned `index` field, which `add_phase` sets on insertion). The
stored entry is the earliest added phase attaining the minimum: it comes
from a decomposition `ps = l₁ ++ x :: l₂` with every same-named phase in
`l₁` of strictly greater energy. -/
theorem C2_phase_dict_min (ps : List Phase) (nm : String) (q : Phase)
    (h : alistGet? (PhaseData.empty.addPhases ps).phase_dict nm = some q) :
    q.name = nm ∧
    (∀ r ∈ ps, r.name = nm → q.energy ≤ r.energy) ∧
    (∃ l₁ x l₂, ps = l₁ ++ x :: l₂ ∧ x.name = nm ∧ q.core = x.core ∧
      ∀ r ∈ l₁, r.name = nm → x.energy < r.energy) ∧
    (PhaseData.empty.addPhases ps)._phases.map Phase.core = ps.map Phase.core := by
  obtain ⟨h1, h2, h3⟩ := phase_dict_min_aux ps nm q h
  exact ⟨h1, h2, h3, addPhases_phases_core ps⟩

/-- C2 witness: the spec's example — two `Fe2O3` phases with energies `-3`
then `-5`; the dictionary entry has energy `-5` and both phases remain in
the ordered list. -/
theorem C2_phase_dict_min_witness :
    (qC2.name = "Fe2O3" ∧
      (∀ r ∈ psC2, r.name = "Fe2O3" → qC2.energy ≤ r.energy) ∧
      (∃ l₁ x l₂, psC2 = l₁ ++ x :: l₂ ∧ x.name = "Fe2O3" ∧ qC2.core = x.core ∧
        ∀ r ∈ l₁, r.name = "Fe2O3" → x.energy < r.energy) ∧
      (PhaseData.empty.addPhases psC2)._phases.map Phase.core = psC2.map Phase.core) ∧
    qC2.energy = -5 ∧ (PhaseData.empty.addPhases psC2)._phases.length = 2 :=
  ⟨C2_phase_dict_min psC2 "Fe2O3" qC2 rfl, by decide, by decide⟩

/-! ### Python-set and bucket lemmas (claim C4) -/

theorem mem_pySetAdd {m : Phase} {s : List Phase} {p : Phase}
    (h : m ∈ pySetAdd s p) : m ∈ s ∨ m = p := by
  rw [pySetAdd] at h
  split at h
  · exact Or.inl h
  · rcases List.mem_append.mp h with h | h
    · exact Or.inl h
    · exact Or.inr (List.mem_singleton.mp h)

theorem pySetMem_true_iff (s : List Phase) (q : Phase) :
    pySetMem s q = true ↔
      ∃ m ∈ s, m.hashKey = q.hashKey ∧ m.pyEq q = true := by
  rw [pySetMem, List.any_eq_true]
  constructor
  · rintro ⟨m, hm, hpred⟩
    rw [Bool.and_eq_true, decide_eq_true_eq] at hpred
    exact ⟨m, hm, hpred.1, hpred.2⟩
  · rintro ⟨m, hm, h1, h2⟩
    refine ⟨m, hm, ?_⟩
    rw [Bool.and_eq_true, decide_eq_true_eq]
    exact ⟨h1, h2⟩

theorem pySetMem_mono (s : List Phase) (p q : Phase)
    (h : pySetMem s q = true) : pySetMem (pySetAdd s p) q = true := by
  rw [pySetAdd]
  split
  · exact h
  · rw [pySetMem, List.any_append]
    rw [pySetMem] at h
    rw [h]
    rfl

theorem pySetMem_setIndex_right (s : List Phase) (p : Phase) (i : Option Nat) :
    pySetMem s { p with index := i } = pySetMem s p := by
  cases p
  rfl

theorem pySetMem_pySetAdd_self_setIndex (s : List Phase) (p : Phase) (i : Option Nat) :
    pySetMem (pySetAdd s { p with index := i }) p = true := by
  rw [pySetAdd]
  split
  · next hmem =>
    rw [pySetMem_setIndex_right] at hmem
    exact hmem
  · simp only [pySetMem, List.any_append, List.any_cons, List.any_nil,
      Bool.or_false, Phase.hashKey_setIndex, Phase.pyEq_setIndex]
    rw [Phase.pyEq_refl p]
    simp

theorem pySetMem_pySetAdd_false (s : List Phase) (p q : Phase)
    (h1 : pySetMem s q = false) (h2 : p.pyEq q = false) :
    pySetMem (pySetAdd s p) q = false := by
  rw [pySetAdd]
  split
  · exact h1
  · simp only [pySetMem, List.any_append, List.any_cons, List.any_nil,
      Bool.or_false] at h1 ⊢
    rw [h1, h2, Bool.and_false]
    rfl

theorem foldl_bucket_not_mem (p' : Phase) :
    ∀ (l : List Elt) (m : List (Elt × List Phase)) (E : Elt), E ∉ l →
    alistGet? (l.foldl
      (fun m e => alistSet m e (pySetAdd ((alistGet? m e).getD []) p')) m) E =
      alistGet? m E := by
  intro l
  induction l with
  | nil => intro m E _; rfl
  | cons k rest ih =>
    intro m E hE
    rw [List.mem_cons] at hE
    push_neg at hE
    simp only [List.foldl_cons]
    rw [ih _ E hE.2, alistGet?_set_ne _ _ _ _ hE.1]

theorem foldl_bucket_mem (p' : Phase) :
    ∀ (l : List Elt), l.Nodup → ∀ (m : List (Elt × List Phase)) (E : Elt), E ∈ l →
    alistGet? (l.foldl
      (fun m e => alistSet m e (pySetAdd ((alistGet? m e).getD []) p')) m) E =
      some (pySetAdd ((alistGet? m E).getD []) p') := by
  intro l
  induction l with
  | nil => intro _ m E hE; simp at hE
  | cons k rest ih =>
    intro hnd m E hE
    rw [List.nodup_cons] at hnd
    simp only [List.foldl_cons]
    rcases List.mem_cons.mp hE with hE | hE
    · subst hE
      rw [foldl_bucket_not_mem p' rest _ E hnd.1, alistGet?_set_self]
    · have hne : E ≠ k := fun hh => hnd.1 (hh ▸ hE)
      rw [ih hnd.2 _ E hE, alistGet?_set_ne _ _ _ _ hne]

theorem eltBucket_addPhase_of_mem (d : PhaseData) (p : Phase)
    (hnd : (Comp.keys p.comp).Nodup) (E : Elt) (hE : E ∈ Comp.keys p.comp) :
    (d.addPhase p).eltBucket E =
      pySetAdd (d.eltBucket E) { p with index := some (d._phases.length + 1) } := by
  simp only [PhaseData.addPhase, PhaseData.eltBucket, Phase.comp_setIndex]
  rw [foldl_bucket_mem _ _ hnd _ E hE]
  rfl

theorem eltBucket_addPhase_of_not_mem (d : PhaseData) (p : Phase) (E : Elt)
    (hE : E ∉ Comp.keys p.comp) :
    (d.addPhase p).eltBucket E = d.eltBucket E := by
  simp only [PhaseData.addPhase, PhaseData.eltBucket, Phase.comp_setIndex]
  rw [foldl_bucket_not_mem _ _ _ E hE]

theorem dimBucket_addPhase_self (d : PhaseData) (p : Phase) :
    (d.addPhase p).dimBucket p.comp.length =
      pySetAdd (d.dimBucket p.comp.length)
        { p with index := some (d._phases.length + 1) } := by
  simp only [PhaseData.addPhase, PhaseData.dimBucket, Phase.comp_setIndex]
  rw [alistGet?_set_self]
  rfl

theorem dimBucket_addPhase_ne (d : PhaseData) (p : Phase) (n : Nat)
    (hn : n ≠ p.comp.length) :
    (d.addPhase p).dimBucket n = d.dimBucket n := by
  simp only [PhaseData.addPhase, PhaseData.dimBucket, Phase.comp_setIndex]
  rw [alistGet?_set_ne _ _ _ _ hn]

theorem keys_length_of_eltFinset_eq {c d : Comp}
    (h : Comp.eltFinset c = Comp.eltFinset d)
    (hc : (Comp.keys c).Nodup) (hd : (Comp.keys d).Nodup) :
    c.length = d.length := by
  have h1 : (Comp.keys c).toFinset.card = (Comp.keys d).toFinset.card := by
    rw [Comp.eltFinset, Comp.eltFinset] at h
    rw [h]
  rw [List.toFinset_card_of_nodup hc, List.toFinset_card_of_nodup hd] at h1
  have h2 : (Comp.keys c).length = c.length := List.length_map _ _
  have h3 : (Comp.keys d).length = d.length := List.length_map _ _
  rw [h2, h3] at h1
  exact h1

theorem Phase.pyEq_false_of_key (a b : Phase) (E : Elt)
    (ha : E ∈ Comp.keys a.comp) (hb : E ∉ Comp.keys b.comp) :
    a.pyEq b = false := by
  cases h : a.pyEq b
  · rfl
  · exfalso
    have hf := Phase.pyEq_eltFinset h
    rw [Comp.eltFinset, Comp.eltFinset] at hf
    have hmem : E ∈ (Comp.keys b.comp).toFinset := hf ▸ List.mem_toFinset.mpr ha
    exact hb (List.mem_toFinset.mp hmem)

theorem Phase.pyEq_false_of_length (a b : Phase)
    (hna : (Comp.keys a.comp).Nodup) (hnb : (Comp.keys b.comp).Nodup)
    (hl : a.comp.length ≠ b.comp.length) : a.pyEq b = false := by
  cases h : a.pyEq b
  · rfl
  · exact absurd (keys_length_of_eltFinset_eq (Phase.pyEq_eltFinset h) hna hnb) hl

theorem buckets_inv (ps : List Phase)
    (hwf : ∀ p ∈ ps, (Comp.keys p.comp).Nodup) :
    (∀ (E : Elt) (m : Phase), m ∈ (PhaseData.empty.addPhases ps).eltBucket E →
      E ∈ Comp.keys m.comp ∧ (Comp.keys m.comp).Nodup) ∧
    (∀ (n : Nat) (m : Phase), m ∈ (PhaseData.empty.addPhases ps).dimBucket n →
      m.comp.length = n ∧ (Comp.keys m.comp).Nodup) := by
  induction ps using List.reverseRecOn with
  | nil =>
    constructor
    · intro E m hm
      simp [PhaseData.addPhases, PhaseData.empty, PhaseData.eltBucket, alistGet?] at hm
    · intro n m hm
      simp [PhaseData.addPhases, PhaseData.empty, PhaseData.dimBucket, alistGet?] at hm
  | append_singleton ps p ih =>
    have hwf' : ∀ r ∈ ps, (Comp.keys r.comp).Nodup :=
      fun r hr => hwf r (List.mem_append_left _ hr)
    have hpwf : (Comp.keys p.comp).Nodup :=
      hwf p (List.mem_append_right _ (List.mem_singleton_self p))
    obtain ⟨ihE, ihD⟩ := ih hwf'
    rw [addPhases_append]
    constructor
    · intro E m hm
      by_cases hE : E ∈ Comp.keys p.comp
      · rw [eltBucket_addPhase_of_mem _ p hpwf E hE] at hm
        rcases mem_pySetAdd hm with hm | hm
        · exact ihE E m hm
        · subst hm
          rw [Phase.comp_setIndex]
          exact ⟨hE, hpwf⟩
      · rw [eltBucket_addPhase_of_not_mem _ p E hE] at hm
        exact ihE E m hm
    · intro n m hm
      by_cases hn : n = p.comp.length
      · subst hn
        rw [dimBucket_addPhase_self] at hm
        rcases mem_pySetAdd hm with hm | hm
        · exact ihD _ m hm
        · subst hm
          rw [Phase.comp_setIndex]
          exact ⟨rfl, hpwf⟩
      · rw [dimBucket_addPhase_ne _ p n hn] at hm
        exact ihD n m hm

theorem buckets_mem_aux :
    ∀ (ps : List Phase), (∀ p ∈ ps, (Comp.keys p.comp).Nodup) →
    ∀ q ∈ ps, ∀ (E : Elt) (dn : Nat),
    pySetMem ((PhaseData.empty.addPhases ps).eltBucket E) q =
      decide (E ∈ Comp.keys q.comp) ∧
    pySetMem ((PhaseData.empty.addPhases ps).dimBucket dn) q =
      decide (q.comp.length = dn) := by
  intro ps
  induction ps using List.reverseRecOn with
  | nil =>
    intro _ q hq
    simp at hq
  | append_singleton ps p ih =>
    intro hwf q hq E dn
    have hwf' : ∀ r ∈ ps, (Comp.keys r.comp).Nodup :=
      fun r hr => hwf r (List.mem_append_left _ hr)
    have hpwf : (Comp.keys p.comp).Nodup :=
      hwf p (List.mem_append_right _ (List.mem_singleton_self p))
    rw [addPhases_append]
    rcases List.mem_append.mp hq with hq' | hq'
    · obtain ⟨ih1, ih2⟩ := ih hwf' q hq' E dn
      have hqwf : (Comp.keys q.comp).Nodup := hwf' q hq'
      constructor
      · by_cases hE : E ∈ Comp.keys p.comp
        · rw [eltBucket_addPhase_of_mem _ p hpwf E hE]
          by_cases hq2 : E ∈ Comp.keys q.comp
          · rw [decide_eq_true hq2]
            apply pySetMem_mono
            rw [ih1]
            exact decide_eq_true hq2
          · rw [decide_eq_false hq2]
            apply pySetMem_pySetAdd_false
            · rw [ih1]
              exact decide_eq_false hq2
            · rw [Phase.pyEq_setIndex]
              exact Phase.pyEq_false_of_key p q E hE hq2
        · rw [eltBucket_addPhase_of_not_mem _ p E hE]
          exact ih1
      · by_cases hn : dn = p.comp.length
        · subst hn
          rw [dimBucket_addPhase_self]
          by_cases hq2 : q.comp.length = p.comp.length
          · rw [decide_eq_true hq2]
            apply pySetMem_mono
            rw [ih2]
            exact decide_eq_true hq2
          · rw [decide_eq_false hq2]
            apply pySetMem_pySetAdd_false
            · rw [ih2]
              exact decide_eq_false hq2
            · rw [Phase.pyEq_setIndex]
              exact Phase.pyEq_false_of_length p q hpwf hqwf
                (fun hh => hq2 hh.symm)
        · rw [dimBucket_addPhase_ne _ p dn hn]
          exact ih2
    · rw [List.mem_singleton] at hq'
      subst hq'
      constructor
      · by_cases hE : E ∈ Comp.keys q.comp
        · rw [eltBucket_addPhase_of_mem _ q hpwf E hE, decide_eq_true hE]
          exact pySetMem_pySetAdd_self_setIndex _ q _
        · rw [eltBucket_addPhase_of_not_mem _ q E hE, decide_eq_false hE]
          cases hb : pySetMem ((PhaseData.empty.addPhases ps).eltBucket E) q
          · rfl
          · exfalso
            obtain ⟨m, hm, -, hpq⟩ := (pySetMem_true_iff _ _).mp hb
            obtain ⟨hmE, -⟩ := (buckets_inv ps hwf').1 E m hm
            exact Bool.false_ne_true
              ((Phase.pyEq_false_of_key m q E hmE hE) ▸ hpq)
      · by_cases hn : dn = q.comp.length
        · subst hn
          rw [dimBucket_addPhase_self, decide_eq_true rfl]
          exact pySetMem_pySetAdd_self_setIndex _ q _
        · rw [dimBucket_addPhase_ne _ q dn hn,
            decide_eq_false (fun hh => hn hh.symm)]
          cases hb : pySetMem ((PhaseData.empty.addPhases ps).dimBucket dn) q
          · rfl
          · exfalso
            obtain ⟨m, hm, -, hpq⟩ := (pySetMem_true_iff _ _).mp hb
            obtain ⟨hml, hmnd⟩ := (buckets_inv ps hwf').2 dn m hm
            have hlen := keys_length_of_eltFinset_eq
              (Phase.pyEq_eltFinset hpq) hmnd hpwf
            exact hn (by rw [← hml, hlen])

/-- C4 counterexample to the claim as frozen: phases are indexed under every
*key* of their composition dictionary, with no nonzero-amount filter.
`Phase({'Fe': 0, 'O': 3}, -1)` is constructible, its composition maps `'Fe'`
to zero, and yet after `add_phase` it is a member of `phases_by_elt['Fe']`
(Python-set membership: same `(name, energy)` hash and `__eq__`). -/
theorem C4_zero_amount_counterexample :
    Phase.make (some [("Fe", 0), ("O", 3)]) (some (-1)) "" true none false "" = .ok pC4 ∧
    pySetMem ((PhaseData.empty.addPhase pC4).eltBucket "Fe") pC4 = true ∧
    Comp.get pC4.comp "Fe" = 0 :=
  ⟨rfl, by decide, by decide⟩

/-- C4 amended: after any sequence of `add_phase` calls on an empty
`PhaseData`, an added phase `q` is a member of `phases_by_elt[E]` exactly
when `E` is among the *keys* of `q`'s composition dictionary (regardless of
the stored amount — the source iterates `for elt in phase.comp` with no
nonzero filter), and a member of `phases_by_dim[d]` exactly when its
composition dictionary has `d` entries (`len(phase.comp)`). Membership is
Python-set membership (equal `(name, energy)` hash plus `__eq__`); the
`Nodup` hypothesis embeds the dict data model. -/
theorem C4_buckets_amended (ps : List Phase)
    (hwf : ∀ p ∈ ps, (Comp.keys p.comp).Nodup)
    (q : Phase) (hq : q ∈ ps) (E : Elt) (dn : Nat) :
    pySetMem ((PhaseData.empty.addPhases ps).eltBucket E) q =
      decide (E ∈ Comp.keys q.comp) ∧
    pySetMem ((PhaseData.empty.addPhases ps).dimBucket dn) q =
      decide (q.comp.length = dn) :=
  buckets_mem_aux ps hwf q hq E dn

/-- C4 witness at `Phase({'Fe': 2, 'O': 3}, -3)`: present in
`phases_by_elt['Fe']` and `phases_by_dim[2]`, absent from
`phases_by_elt['Li']`. -/
theorem C4_buckets_amended_witness :
    (pySetMem ((PhaseData.empty.addPhases [pC4w]).eltBucket "Fe") pC4w =
        decide ("Fe" ∈ Comp.keys pC4w.comp) ∧
      pySetMem ((PhaseData.empty.addPhases [pC4w]).dimBucket 2) pC4w =
        decide (pC4w.comp.length = 2)) ∧
    pySetMem ((PhaseData.empty.addPhases [pC4w]).eltBucket "Fe") pC4w = true ∧
    pySetMem ((PhaseData.empty.addPhases [pC4w]).eltBucket "Li") pC4w = false :=
  ⟨C4_buckets_amended [pC4w] (List.forall_mem_singleton.mpr (by decide)) pC4w
      (List.mem_singleton_self pC4w) "Fe" 2,
    by decide, by decide⟩

/-! ### Heap lemmas (claim C10) -/

theorem heapGet_append (h : List Comp) (c : Comp) :
    ∀ i, i < h.length → heapGet (h ++ [c]) i = heapGet h i := by
  induction h with
  | nil =>
    intro i hi
    simp at hi
  | cons x rest ih =>
    intro i hi
    cases i with
    | zero => rfl
    | succ i' =>
      simp only [List.cons_append, heapGet, List.getD_cons_succ]
      exact ih i' (by simpa using Nat.succ_lt_succ_iff.mp (by simpa using hi))

theorem heapGet_set_ne (h : List Comp) :
    ∀ (i j : Nat), j ≠ i → ∀ c, heapGet (h.set i c) j = heapGet h j := by
  induction h with
  | nil => intro i j _ c; rfl
  | cons x rest ih =>
    intro i j hij c
    cases i with
    | zero =>
      cases j with
      | zero => exact absurd rfl hij
      | succ j' => rfl
    | succ i' =>
      cases j with
      | zero => rfl
      | succ j' =>
        simp only [List.set_cons_succ, heapGet, List.getD_cons_succ]
        exact ih i' j' (fun hh => hij (congrArg Nat.succ hh)) c

theorem heap_inner_frame (ri : Nat) (pres : ℚ) :
    ∀ (l : List (Elt × ℚ)) (hc : List Comp),
    (l.foldl (fun hc2 ea =>
        hc2.set ri (Comp.addAt (heapGet hc2 ri) ea.1 (-(pres * ea.2)))) hc).length
        = hc.length ∧
    ∀ j, j ≠ ri →
      heapGet (l.foldl (fun hc2 ea =>
        hc2.set ri (Comp.addAt (heapGet hc2 ri) ea.1 (-(pres * ea.2)))) hc) j =
      heapGet hc j := by
  intro l
  induction l with
  | nil => intro hc; exact ⟨rfl, fun j _ => rfl⟩
  | cons ea rest ih =>
    intro hc
    simp only [List.foldl_cons]
    obtain ⟨ih1, ih2⟩ := ih (hc.set ri (Comp.addAt (heapGet hc ri) ea.1 (-(pres * ea.2))))
    constructor
    · rw [ih1, List.length_set]
    · intro j hj
      rw [ih2 j hj, heapGet_set_ne hc ri j hj]

theorem heap_step_foldl_error (ri ti : Nat) (l : List (Elt × ℚ)) (z : PyErr) :
    l.foldl (pyAmtHeapStep ri ti) (.error z) = .error z := by
  induction l with
  | nil => rfl
  | cons ca rest ih => simpa [pyAmtHeapStep] using ih

theorem heap_fold_frame (ri ti : Nat) :
    ∀ (l : List (Elt × ℚ)) (hc hc' : List Comp),
    l.foldl (pyAmtHeapStep ri ti) (.ok hc) = .ok hc' →
    hc'.length = hc.length ∧ ∀ j, j ≠ ri → heapGet hc' j = heapGet hc j := by
  intro l
  induction l with
  | nil =>
    intro hc hc' h
    obtain rfl := Except.ok.inj h
    exact ⟨rfl, fun j _ => rfl⟩
  | cons ca rest ih =>
    intro hc hc' h
    simp only [List.foldl_cons] at h
    by_cases ha : ca.2 = 0
    · rw [pyAmtHeapStep, if_pos ha, heap_step_foldl_error] at h
      exact Except.noConfusion h
    · rw [pyAmtHeapStep, if_neg ha] at h
      obtain ⟨ih1, ih2⟩ := ih _ hc' h
      obtain ⟨if1, if2⟩ := heap_inner_frame ri _ (heapGet hc ti) hc
      constructor
      · rw [ih1, if1]
      · intro j hj
        rw [ih2 j hj, if2 j hj]

/-- C10: the heap model of `amt`/`fraction` (cell `bi` holds the base
dictionary — `self.comp` for `amt`, `self.unit_comp` for `fraction` — and
cell `ti` the caller's target): the residual is a fresh cell allocated at
the end of the heap, every write targets that fresh cell, and on success
every pre-existing heap cell is unchanged — in particular `p.comp`,
`p.unit_comp`, `p.nom_comp` and the target dictionary are identical before
and after, and the scalar `energy` fields are never written (the function
does not touch the `Phase` record at all). -/
theorem C10_amt_heap_frame (h : List Comp) (bi ti : Nat) (h' : List Comp) (ri : Nat)
    (hrun : pyAmtHeap h bi ti = .ok (h', ri)) :
    ∀ j, j < h.length → heapGet h' j = heapGet h j := by
  simp only [pyAmtHeap] at hrun
  rcases hfold : (heapGet (h ++ [heapGet h bi]) ti).foldl
      (pyAmtHeapStep h.length ti) (.ok (h ++ [heapGet h bi])) with err | hc
  · rw [hfold] at hrun
    exact Except.noConfusion hrun
  · rw [hfold] at hrun
    dsimp only at hrun
    by_cases htz : Comp.total (heapGet hc ti) = 0
    · rw [if_pos htz] at hrun
      exact Except.noConfusion hrun
    · rw [if_neg htz] at hrun
      have hh' : h' = hc.set h.length
          (Comp.set (heapGet hc h.length) "var"
            ((Comp.total (heapGet (h ++ [heapGet h bi]) h.length) -
              Comp.total (heapGet hc h.length)) / Comp.total (heapGet hc ti))) :=
        (congrArg Prod.fst (Except.ok.inj hrun)).symm
      obtain ⟨hfl, hfr⟩ := heap_fold_frame h.length ti _ _ hc hfold
      intro j hj
      have hjne : j ≠ h.length := Nat.ne_of_lt hj
      rw [hh', heapGet_set_ne hc h.length j hjne, hfr j hjne,
        heapGet_append h _ j hj]

/-- C10 witness: `Phase({'Fe':1,'Li':5,'O':8}, -1).amt({'Li':2,'O':1})` run
on the heap with the phase's composition in cell 0 and the target in cell
1; both cells are unchanged by the run. -/
theorem C10_amt_heap_frame_witness :
    heapGet hC10run.1 0 = heapGet hC10 0 ∧ heapGet hC10run.1 1 = heapGet hC10 1 :=
  ⟨C10_amt_heap_frame hC10 0 1 hC10run.1 hC10run.2 rfl 0 (by decide),
   C10_amt_heap_frame hC10 0 1 hC10run.1 hC10run.2 rfl 1 (by decide)⟩

theorem heapGet_append_self (h : List Comp) (c : Comp) :
    heapGet (h ++ [c]) h.length = c := by
  induction h with
  | nil => rfl
  | cons x rest ih =>
    simp only [List.cons_append, List.length_cons, heapGet, List.getD_cons_succ]
    exact ih

theorem heapGet_set_self (h : List Comp) :
    ∀ (i : Nat), i < h.length → ∀ c, heapGet (h.set i c) i = c := by
  induction h with
  | nil =>
    intro i hi
    simp at hi
  | cons x rest ih =>
    intro i hi c
    cases i with
    | zero => rfl
    | succ i' =>
      simp only [List.set_cons_succ, heapGet, List.getD_cons_succ]
      exact ih i' (by simpa using Nat.succ_lt_succ_iff.mp (by simpa using hi)) c

theorem heap_inner_resid (ri : Nat) (pres : ℚ) :
    ∀ (l : List (Elt × ℚ)) (hc : List Comp), ri < hc.length →
    heapGet (l.foldl (fun hc2 ea =>
        hc2.set ri (Comp.addAt (heapGet hc2 ri) ea.1 (-(pres * ea.2)))) hc) ri =
      l.foldl (fun r2 ea => Comp.addAt r2 ea.1 (-(pres * ea.2))) (heapGet hc ri) := by
  intro l
  induction l with
  | nil => intro hc _; rfl
  | cons ea rest ih =>
    intro hc hri
    simp only [List.foldl_cons]
    rw [ih _ (by rw [List.length_set]; exact hri), heapGet_set_self hc ri hri]

theorem heap_fold_vs_pure (ri ti : Nat) (t : Comp) (htine : ti ≠ ri) :
    ∀ (l : List (Elt × ℚ)) (hc : List Comp), ri < hc.length → heapGet hc ti = t →
    (∀ e, l.foldl (pyAmtHeapStep ri ti) (.ok hc) = .error e →
       l.foldl (pyAmtStep t) (.ok (heapGet hc ri)) = .error e) ∧
    (∀ hc', l.foldl (pyAmtHeapStep ri ti) (.ok hc) = .ok hc' →
       l.foldl (pyAmtStep t) (.ok (heapGet hc ri)) = .ok (heapGet hc' ri) ∧
       heapGet hc' ti = t ∧ ri < hc'.length) := by
  intro l
  induction l with
  | nil =>
    intro hc hri hti'
    constructor
    · intro e he
      exact Except.noConfusion he
    · intro hc' h'
      obtain rfl := Except.ok.inj h'
      exact ⟨rfl, hti', hri⟩
  | cons ca rest ih =>
    intro hc hri hti'
    by_cases ha : ca.2 = 0
    · constructor
      · intro e he
        rw [List.foldl_cons, pyAmtHeapStep, if_pos ha, heap_step_foldl_error] at he
        obtain rfl := (Except.error.inj he)
        rw [List.foldl_cons, pyAmtStep, if_pos ha, pyAmtStep_foldl_error]
      · intro hc' h'
        rw [List.foldl_cons, pyAmtHeapStep, if_pos ha, heap_step_foldl_error] at h'
        exact Except.noConfusion h'
    · obtain ⟨il, ifr⟩ := heap_inner_frame ri (Comp.get (heapGet hc ri) ca.1 / ca.2)
        (heapGet hc ti) hc
      have hr1 := heap_inner_resid ri (Comp.get (heapGet hc ri) ca.1 / ca.2)
        (heapGet hc ti) hc hri
      have hti1 : heapGet ((heapGet hc ti).foldl (fun hc2 ea =>
          hc2.set ri (Comp.addAt (heapGet hc2 ri) ea.1
            (-(Comp.get (heapGet hc ri) ca.1 / ca.2 * ea.2)))) hc) ti = t := by
        rw [ifr ti htine, hti']
      have hri1 : ri < ((heapGet hc ti).foldl (fun hc2 ea =>
          hc2.set ri (Comp.addAt (heapGet hc2 ri) ea.1
            (-(Comp.get (heapGet hc ri) ca.1 / ca.2 * ea.2)))) hc).length := by
        rw [il]
        exact hri
      obtain ⟨ihE, ihO⟩ := ih _ hri1 hti1
      rw [hr1] at ihE ihO
      rw [hti'] at ihE ihO
      constructor
      · intro e he
        rw [List.foldl_cons, pyAmtHeapStep, if_neg ha] at he
        rw [hti'] at he
        rw [List.foldl_cons, pyAmtStep, if_neg ha]
        exact ihE e he
      · intro hc' h'
        rw [List.foldl_cons, pyAmtHeapStep, if_neg ha] at h'
        rw [hti'] at h'
        rw [List.foldl_cons, pyAmtStep, if_neg ha]
        exact ihO hc' h'

/-- The heap rendering computes exactly the pure `pyAmt`: with the base
dictionary in cell `bi` and the target in cell `ti` (a pre-existing cell),
`pyAmtHeap` fails with precisely the errors of `pyAmt` and on success
returns the `pyAmt` residual in the freshly allocated cell. -/
theorem pyAmtHeap_agrees_pyAmt (h : List Comp) (bi ti : Nat) (hti : ti < h.length) :
    (∀ e, pyAmtHeap h bi ti = .error e ↔
       pyAmt (heapGet h bi) (heapGet h ti) = .error e) ∧
    (∀ h' ri, pyAmtHeap h bi ti = .ok (h', ri) →
       ri = h.length ∧
       pyAmt (heapGet h bi) (heapGet h ti) = .ok (heapGet h' ri)) := by
  have hbase : heapGet (h ++ [heapGet h bi]) h.length = heapGet h bi :=
    heapGet_append_self h _
  have htih : heapGet (h ++ [heapGet h bi]) ti = heapGet h ti :=
    heapGet_append h _ ti hti
  have htine : ti ≠ h.length := Nat.ne_of_lt hti
  have hlen : h.length < (h ++ [heapGet h bi]).length := by
    rw [List.length_append]
    simp
  obtain ⟨cE, cO⟩ := heap_fold_vs_pure h.length ti (heapGet h ti) htine
    (heapGet h ti) (h ++ [heapGet h bi]) hlen htih
  rw [hbase] at cE cO
  simp only [pyAmtHeap, pyAmt, htih, hbase]
  rcases hf : (heapGet h ti).foldl (pyAmtHeapStep h.length ti)
      (.ok (h ++ [heapGet h bi])) with e0 | hc
  · rw [cE e0 hf]
    dsimp only
    constructor
    · intro e
      constructor
      · intro x
        rw [Except.error.inj x]
      · intro x
        rw [Except.error.inj x]
    · intro h' ri hcontra
      exact Except.noConfusion hcontra
  · obtain ⟨hpure, hcti, hclen⟩ := cO hc hf
    rw [hpure]
    dsimp only
    by_cases htz : Comp.total (heapGet hc ti) = 0
    · rw [if_pos htz, if_pos (hcti ▸ htz)]
      constructor
      · intro e
        constructor
        · intro x
          rw [Except.error.inj x]
        · intro x
          rw [Except.error.inj x]
      · intro h' ri hcontra
        exact Except.noConfusion hcontra
    · rw [if_neg htz, if_neg (fun hh => htz (hcti.symm ▸ hh))]
      constructor
      · intro e
        constructor
        · intro hcontra
          exact Except.noConfusion hcontra
        · intro hcontra
          exact Except.noConfusion hcontra
      · intro h' ri hok
        have hp := Except.ok.inj hok
        have hri : ri = h.length := (congrArg Prod.snd hp).symm
        have hh' : h' = hc.set h.length
            (Comp.set (heapGet hc h.length) "var"
              ((Comp.total (heapGet h bi) - Comp.total (heapGet hc h.length)) /
                Comp.total (heapGet hc ti))) := (congrArg Prod.fst hp).symm
        refine ⟨hri, ?_⟩
        rw [hri, hh', heapGet_set_self hc h.length hclen, hcti]
